import Mathlib

/-!
Verification of the answer-to-page layout engine of `src/app.py` (WriteMate).

The embedding models the text utilities (`sanitize_text`), the answer
segmenter (`re.split` on the marker pattern at line 275), the greedy line
wrapper and paginator inside `upload` (lines 267-307), and the per-page
header overlay (`HandwrittenPDF.header`, lines 158-180).

Strings are modelled as `List Char`; page coordinates are rationals; the
measuring capability `pdf.get_string_width` is an arbitrary function
parameter (indexed by the current font size where it matters).
-/

namespace Codefy

/-- Strings of the program are modelled as lists of characters. -/
abbrev Str := List Char

/-- Characters treated as whitespace by Python's `str.split`, `str.strip`
and the regex class `\s` (ASCII range). -/
def isPySpace (c : Char) : Bool :=
  c = ' ' || c = '\t' || c = '\n' || c = '\r' || c = '\x0b' || c = '\x0c'

/-- Flush a word accumulator (held reversed) into at most one word. -/
def flushAcc (acc : Str) : List Str :=
  if acc = [] then [] else [acc.reverse]

/-- Worker for `pyWords`: scans the characters, accumulating the current
word reversed in `acc`. -/
def pyWordsAux : Str → Str → List Str
  | [], acc => flushAcc acc
  | c :: cs, acc =>
    if isPySpace c then flushAcc acc ++ pyWordsAux cs []
    else pyWordsAux cs (c :: acc)

/-- Model of Python `str.split()` with no arguments: split on runs of
whitespace, discarding empty fragments (used at line 284, `ans.split()`). -/
def pyWords (l : Str) : List Str := pyWordsAux l []

/-- Model of Python `str.strip()`: remove leading and trailing whitespace. -/
def pyStrip (l : Str) : Str :=
  ((l.dropWhile isPySpace).reverse.dropWhile isPySpace).reverse

/-- The allowed character set of `sanitize_text` (line 106). -/
def allowedChars : Str :=
  "abcdefghijklmnopqrstuvwxyzABCDEFGHIJKLMNOPQRSTUVWXYZ0123456789 [](),.:;!?@%&-+=*\n".data

/-- Model of `sanitize_text` (lines 105-107): keep exactly the characters in
the allowed set, or a newline. -/
def sanitize_text (l : Str) : Str :=
  l.filter (fun c => allowedChars.contains c || c == '\n')

/-- C10: the text sanitizer is idempotent: `sanitize_text (sanitize_text s)`
equals `sanitize_text s` for every string `s`, because every character of
the output belongs to the fixed allowed set that the filter preserves. -/
theorem sanitize_idem (l : Str) : sanitize_text (sanitize_text l) = sanitize_text l := by
  unfold sanitize_text
  rw [List.filter_filter]
  refine List.filter_congr ?_
  intro a _
  cases h : (allowedChars.contains a || a == '\n') <;> simp [h]

theorem flushAcc_nil : flushAcc [] = [] := rfl

theorem pyWordsAux_all_ws : ∀ (l acc : Str), (∀ c ∈ l, isPySpace c = true) →
    pyWordsAux l acc = flushAcc acc
  | [], _, _ => rfl
  | c :: cs, acc, h => by
    have hc : isPySpace c = true := h c (by simp)
    have ih := pyWordsAux_all_ws cs [] (fun x hx => h x (by simp [hx]))
    simp [pyWordsAux, hc, ih, flushAcc]

theorem pyWordsAux_ws_mid (b : Str) {c : Char} (hc : isPySpace c = true) :
    ∀ (a acc : Str), pyWordsAux (a ++ c :: b) acc = pyWordsAux a acc ++ pyWords b
  | [], acc => by simp [pyWordsAux, hc, pyWords]
  | d :: a2, acc => by
    by_cases hd : isPySpace d
    · simp [pyWordsAux, hd, pyWordsAux_ws_mid b hc a2 []]
    · simp [pyWordsAux, hd, pyWordsAux_ws_mid b hc a2 (d :: acc)]

theorem pyWordsAux_append_ws {b : Str} (hb : ∀ c ∈ b, isPySpace c = true) :
    ∀ (a acc : Str), pyWordsAux (a ++ b) acc = pyWordsAux a acc
  | [], acc => by simpa [pyWordsAux] using pyWordsAux_all_ws b acc hb
  | d :: a2, acc => by
    by_cases hd : isPySpace d <;>
      simp [pyWordsAux, hd, pyWordsAux_append_ws hb a2]

theorem pyWordsAux_no_ws : ∀ (w acc : Str), (∀ c ∈ w, isPySpace c = false) →
    pyWordsAux w acc = flushAcc (w.reverse ++ acc)
  | [], acc, _ => by simp [pyWordsAux]
  | c :: w2, acc, h => by
    have hc : isPySpace c = false := h c (by simp)
    have ih := pyWordsAux_no_ws w2 (c :: acc) (fun x hx => h x (by simp [hx]))
    simp [pyWordsAux, hc, ih, List.append_assoc]

theorem pyWords_single {w : Str} (hne : w ≠ []) (h : ∀ c ∈ w, isPySpace c = false) :
    pyWords w = [w] := by
  unfold pyWords
  rw [pyWordsAux_no_ws w [] h]
  simp [flushAcc, hne]

theorem pyWordsAux_good : ∀ (l acc : Str), (∀ c ∈ acc, isPySpace c = false) →
    ∀ w ∈ pyWordsAux l acc, w ≠ [] ∧ ∀ c ∈ w, isPySpace c = false
  | [], acc, hacc => by
    intro w hw
    unfold pyWordsAux flushAcc at hw
    split at hw
    · simp at hw
    · next hne =>
      simp at hw
      subst hw
      exact ⟨by simpa using hne, fun c hc => hacc c (List.mem_reverse.mp hc)⟩
  | c :: cs, acc, hacc => by
    intro w hw
    unfold pyWordsAux at hw
    split at hw
    · next hc =>
      rcases List.mem_append.mp hw with hw1 | hw2
      · exact pyWordsAux_good [] acc hacc w (by simpa [pyWordsAux] using hw1)
      · exact pyWordsAux_good cs [] (by simp) w hw2
    · next hc =>
      refine pyWordsAux_good cs (c :: acc) ?_ w hw
      intro x hx
      rcases List.mem_cons.mp hx with rfl | hx2
      · simpa using hc
      · exact hacc x hx2

theorem pyWords_good (l : Str) :
    ∀ w ∈ pyWords l, w ≠ [] ∧ ∀ c ∈ w, isPySpace c = false :=
  pyWordsAux_good l [] (by simp)

theorem pyWords_dropWhile : ∀ l : Str, pyWords (l.dropWhile isPySpace) = pyWords l
  | [] => rfl
  | c :: cs => by
    by_cases hc : isPySpace c
    · rw [List.dropWhile_cons, if_pos hc, pyWords_dropWhile cs]
      simp [pyWords, pyWordsAux, hc, flushAcc]
    · rw [List.dropWhile_cons, if_neg hc]

theorem pyWords_strip (l : Str) : pyWords (pyStrip l) = pyWords l := by
  unfold pyStrip
  set X := l.dropWhile isPySpace with hX
  have h1 : pyWords X = pyWords l := pyWords_dropWhile l
  have hws : ∀ c ∈ (X.reverse.takeWhile isPySpace).reverse, isPySpace c = true := by
    intro c hc
    exact List.mem_takeWhile_imp (List.mem_reverse.mp hc)
  have hdec : (X.reverse.dropWhile isPySpace).reverse ++ (X.reverse.takeWhile isPySpace).reverse
      = X := by
    rw [← List.reverse_append, List.takeWhile_append_dropWhile, List.reverse_reverse]
  calc pyWords (X.reverse.dropWhile isPySpace).reverse
      = pyWordsAux ((X.reverse.dropWhile isPySpace).reverse
          ++ (X.reverse.takeWhile isPySpace).reverse) [] :=
        (pyWordsAux_append_ws hws _ []).symm
    _ = pyWords X := by rw [hdec]; rfl
    _ = pyWords l := h1

theorem all_ws_of_pyStrip_eq_nil {l : Str} (h : pyStrip l = []) :
    ∀ c ∈ l, isPySpace c = true := by
  unfold pyStrip at h
  rw [List.reverse_eq_nil_iff, List.dropWhile_eq_nil_iff] at h
  intro c hc
  have hsplit := List.takeWhile_append_dropWhile isPySpace l
  rcases List.mem_append.mp (hsplit ▸ hc) with h1 | h2
  · exact List.mem_takeWhile_imp h1
  · exact h c (List.mem_reverse.mpr h2)

theorem pyWords_nil_of_all_ws {l : Str} (h : ∀ c ∈ l, isPySpace c = true) :
    pyWords l = [] := by
  unfold pyWords
  rw [pyWordsAux_all_ws l [] h]
  rfl

theorem dropWhile_no_ws {l : Str} (h : ∀ c ∈ l, isPySpace c = false) :
    l.dropWhile isPySpace = l := by
  cases l with
  | nil => rfl
  | cons c cs => rw [List.dropWhile_cons, if_neg (by simp [h c (by simp)])]

theorem pyStrip_no_ws {l : Str} (h : ∀ c ∈ l, isPySpace c = false) : pyStrip l = l := by
  unfold pyStrip
  rw [dropWhile_no_ws h, dropWhile_no_ws (fun c hc => h c (List.mem_reverse.mp hc)),
    List.reverse_reverse]

theorem pyStrip_snoc_space {w : Str} (h : ∀ c ∈ w, isPySpace c = false) :
    pyStrip (w ++ [' ']) = w := by
  cases w with
  | nil => rfl
  | cons c w2 =>
    have hc : isPySpace c = false := h c (by simp)
    unfold pyStrip
    rw [List.cons_append, List.dropWhile_cons, if_neg (by simp [hc])]
    rw [List.reverse_cons, List.reverse_append]
    have hrev : ∀ x ∈ w2.reverse ++ [c], isPySpace x = false := by
      intro x hx
      rcases List.mem_append.mp hx with h1 | h2
      · exact h x (by simp [List.mem_reverse.mp h1])
      · simp at h2
        subst h2
        exact hc
    have hsp : isPySpace ' ' = true := by decide
    show (List.dropWhile isPySpace ([' '].reverse ++ (w2.reverse ++ [c]))).reverse = c :: w2
    rw [show ([' '] : Str).reverse = [' '] from rfl, List.singleton_append,
      List.dropWhile_cons, if_pos hsp, dropWhile_no_ws hrev]
    simp

/-- Single-space join of a list of lines (used to state wrapper idempotence). -/
def joinSp : List Str → Str
  | [] => []
  | [l] => l
  | l :: l2 :: ls => l ++ ' ' :: joinSp (l2 :: ls)

theorem pyWords_mid (a b : Str) : pyWords (a ++ ' ' :: b) = pyWords a ++ pyWords b :=
  pyWordsAux_ws_mid b (by decide) a []

theorem pyWords_snoc_space (l : Str) : pyWords (l ++ [' ']) = pyWords l :=
  pyWordsAux_append_ws (by intro c hc; simp at hc; subst hc; decide) l []

theorem pyWords_word_space {w : Str} (hw : w ≠ []) (hwn : ∀ c ∈ w, isPySpace c = false) :
    pyWords (w ++ [' ']) = [w] := by
  rw [pyWords_snoc_space, pyWords_single hw hwn]

theorem pyWords_joinSp : ∀ ls : List Str, pyWords (joinSp ls) = ls.flatMap pyWords
  | [] => rfl
  | [l] => by simp [joinSp]
  | l :: l2 :: ls => by
    rw [joinSp, pyWords_mid, pyWords_joinSp (l2 :: ls)]
    simp

/-- The greedy line wrapper of the spec (section 4.2): words are accumulated
into a buffer; a candidate word is appended exactly when
`measure (buffer ++ word ++ " ") < max_width` (`max_width = 180`), otherwise
the trimmed buffer is emitted and the buffer restarts as the word plus a
trailing space; a trailing non-empty buffer is emitted trimmed. -/
def wrapGreedy (m : Str → ℚ) : List Str → Str → List Str
  | [], cl => if cl ≠ [] then [pyStrip cl] else []
  | w :: ws, cl =>
    if m (cl ++ w ++ [' ']) < 180 then wrapGreedy m ws (cl ++ w ++ [' '])
    else pyStrip cl :: wrapGreedy m ws (w ++ [' '])

theorem pyWords_buffer_extend {cl w : Str} (hcl : cl = [] ∨ ∃ cl0, cl = cl0 ++ [' '])
    (hw : w ≠ []) (hwn : ∀ c ∈ w, isPySpace c = false) :
    pyWords (cl ++ w ++ [' ']) = pyWords cl ++ [w] := by
  rcases hcl with rfl | ⟨cl0, rfl⟩
  · rw [List.nil_append, pyWords_word_space hw hwn]
    rfl
  · have h1 : (cl0 ++ [' ']) ++ w ++ [' '] = cl0 ++ ' ' :: (w ++ [' ']) := by simp
    rw [h1, pyWords_mid, pyWords_word_space hw hwn, pyWords_snoc_space]

theorem wrapGreedy_words (m : Str → ℚ) :
    ∀ (ws : List Str) (cl : Str), (∀ w ∈ ws, w ≠ [] ∧ ∀ c ∈ w, isPySpace c = false) →
    (cl = [] ∨ ∃ cl0, cl = cl0 ++ [' ']) →
    (wrapGreedy m ws cl).flatMap pyWords = pyWords cl ++ ws
  | [], cl, _, hcl => by
    unfold wrapGreedy
    split
    · simp [pyWords_strip]
    · next h =>
      simp at h
      subst h
      rfl
  | w :: ws, cl, hws, hcl => by
    have hw := hws w (by simp)
    have hrest : ∀ x ∈ ws, x ≠ [] ∧ ∀ c ∈ x, isPySpace c = false :=
      fun x hx => hws x (by simp [hx])
    unfold wrapGreedy
    split
    · rw [wrapGreedy_words m ws (cl ++ w ++ [' ']) hrest (Or.inr ⟨cl ++ w, by simp⟩)]
      rw [pyWords_buffer_extend hcl hw.1 hw.2]
      simp
    · rw [List.flatMap_cons,
        wrapGreedy_words m ws (w ++ [' ']) hrest (Or.inr ⟨w, rfl⟩)]
      rw [pyWords_strip, pyWords_word_space hw.1 hw.2]
      simp

/-- C7: word preservation. First part: for every answer string and every
measure function, concatenating (in order) the whitespace-split words of all
wrapped lines yields exactly the whitespace-split word sequence of the input,
so no word is dropped, duplicated or split. Second part: a single word whose
own measured width meets or exceeds `max_width = 180` is still emitted
unsplit, as a line of its own, in the wrapper's output. -/
theorem wrapper_preserves_words (m : Str → ℚ) (ans : Str) :
    ((wrapGreedy m (pyWords ans) []).flatMap pyWords = pyWords ans) ∧
    (∀ w : Str, w ≠ [] → (∀ c ∈ w, isPySpace c = false) → (180:ℚ) ≤ m w →
      w ∈ wrapGreedy m [w] []) := by
  constructor
  · rw [wrapGreedy_words m (pyWords ans) [] (pyWords_good ans) (Or.inl rfl)]
    rfl
  · intro w hne hnw _
    unfold wrapGreedy
    split
    · unfold wrapGreedy
      rw [List.nil_append, if_pos (by simp)]
      rw [pyStrip_snoc_space hnw]
      simp
    · unfold wrapGreedy
      rw [if_pos (by simp)]
      rw [pyStrip_snoc_space hnw]
      simp

theorem wrapper_preserves_words_w :
    ((wrapGreedy (fun _ => (200:ℚ)) (pyWords ['h', 'i']) []).flatMap pyWords
        = pyWords ['h', 'i']) ∧ (['h'] ∈ wrapGreedy (fun _ => (200:ℚ)) [['h']] []) :=
  ⟨(wrapper_preserves_words (fun _ => (200:ℚ)) ['h', 'i']).1,
   (wrapper_preserves_words (fun _ => (200:ℚ)) []).2 ['h'] (by decide) (by decide)
     (by norm_num)⟩

/-- C8: wrapper idempotence. Joining the wrapper's output lines with single
spaces and wrapping the result again, with the same measure function and the
same width bound, reproduces exactly the same sequence of lines. -/
theorem wrapper_idem (m : Str → ℚ) (ans : Str) :
    wrapGreedy m (pyWords (joinSp (wrapGreedy m (pyWords ans) []))) [] =
      wrapGreedy m (pyWords ans) [] := by
  rw [pyWords_joinSp,
    wrapGreedy_words m (pyWords ans) [] (pyWords_good ans) (Or.inl rfl)]
  rfl

/-- Model of one attempted match of the Python regex `\n*\s*\d+\.\s*`
(line 275) at the start of `l`. Both `\n*` and `\s*` are nullable and `\n`
is itself whitespace, so a match is: greedily consume whitespace, then a
non-empty maximal digit run, then a literal period, then trailing
whitespace; on success return the unconsumed rest. -/
def markerMatch (l : Str) : Option Str :=
  let d := l.dropWhile isPySpace
  if d.takeWhile Char.isDigit = [] then none
  else
    let r2 := d.dropWhile Char.isDigit
    if r2.head? = some '.' then some (r2.tail.dropWhile isPySpace) else none

theorem markerMatch_length {l r : Str} (h : markerMatch l = some r) :
    r.length < l.length := by
  unfold markerMatch at h
  set d := l.dropWhile isPySpace with hd
  by_cases h1 : d.takeWhile Char.isDigit = []
  · rw [if_pos h1] at h
    cases h
  · rw [if_neg h1] at h
    by_cases h2 : (d.dropWhile Char.isDigit).head? = some '.'
    · rw [if_pos h2] at h
      injection h with h3
      have e1 : (d.takeWhile Char.isDigit).length + (d.dropWhile Char.isDigit).length
          = d.length := by
        rw [← List.length_append, List.takeWhile_append_dropWhile]
      have e2 : 1 ≤ (d.takeWhile Char.isDigit).length :=
        List.length_pos.mpr h1
      have e3 : 1 ≤ (d.dropWhile Char.isDigit).length := by
        cases hcase : d.dropWhile Char.isDigit with
        | nil => rw [hcase] at h2; cases h2
        | cons x xs => simp
      have e4 : r.length ≤ (d.dropWhile Char.isDigit).tail.length := by
        rw [← h3]
        exact (List.dropWhile_suffix _).sublist.length_le
      have e5 : (d.dropWhile Char.isDigit).tail.length
          = (d.dropWhile Char.isDigit).length - 1 := List.length_tail _
      have e6 : d.length ≤ l.length := (List.dropWhile_suffix _).sublist.length_le
      omega
    · rw [if_neg h2] at h
      cases h

/-- Fuel-indexed worker for the model of `re.split`: scan left to right,
cutting the input at each leftmost non-overlapping match of the marker
pattern; `acc` holds the current fragment reversed. The fuel only serves
structural termination and is irrelevant once it is at least the length of
the input (`splitMarkersGo_fuel`). -/
def splitMarkersGo : ℕ → Str → Str → List Str
  | _, [], acc => [acc.reverse]
  | 0, l, acc => [acc.reverse ++ l]
  | fuel + 1, c :: cs, acc =>
    match markerMatch (c :: cs) with
    | some rest => acc.reverse :: splitMarkersGo fuel rest []
    | none => splitMarkersGo fuel cs (c :: acc)

theorem splitMarkersGo_nil (f : ℕ) (acc : Str) :
    splitMarkersGo f [] acc = [acc.reverse] := by
  cases f <;> rfl

theorem splitMarkersGo_fuel : ∀ (f1 f2 : ℕ) (l acc : Str), l.length ≤ f1 → l.length ≤ f2 →
    splitMarkersGo f1 l acc = splitMarkersGo f2 l acc
  | f1, f2, [], acc, _, _ => by rw [splitMarkersGo_nil, splitMarkersGo_nil]
  | 0, _, c :: cs, _, hf1, _ => by simp at hf1
  | _ + 1, 0, c :: cs, _, _, hf2 => by simp at hf2
  | f1 + 1, f2 + 1, c :: cs, acc, hf1, hf2 => by
    cases hm : markerMatch (c :: cs) with
    | some rest =>
      have hlen := markerMatch_length hm
      simp only [List.length_cons] at hf1 hf2 hlen
      simp only [splitMarkersGo, hm]
      rw [splitMarkersGo_fuel f1 f2 rest [] (by omega) (by omega)]
    | none =>
      simp only [List.length_cons] at hf1 hf2
      simp only [splitMarkersGo, hm]
      exact splitMarkersGo_fuel f1 f2 cs (c :: acc) (by omega) (by omega)

/-- One pass of the `re.split` scan, with just enough fuel. -/
def splitRun (l acc : Str) : List Str := splitMarkersGo l.length l acc

theorem splitRun_nil (acc : Str) : splitRun [] acc = [acc.reverse] := rfl

theorem splitRun_cons_none {c : Char} {cs : Str} (acc : Str)
    (h : markerMatch (c :: cs) = none) :
    splitRun (c :: cs) acc = splitRun cs (c :: acc) := by
  unfold splitRun
  simp only [List.length_cons, splitMarkersGo, h]

theorem splitRun_cons_some {c : Char} {cs rest : Str} (acc : Str)
    (h : markerMatch (c :: cs) = some rest) :
    splitRun (c :: cs) acc = acc.reverse :: splitRun rest [] := by
  unfold splitRun
  have hlen := markerMatch_length h
  simp only [List.length_cons] at hlen
  simp only [List.length_cons, splitMarkersGo, h]
  rw [splitMarkersGo_fuel cs.length rest.length rest [] (by omega) (by omega)]

/-- Model of `re.split(r"\n*\s*\d+\.\s*", solution)` (line 275). -/
def pySplitMarkers (l : Str) : List Str := splitRun l []

/-- Model of lines 275-276: split the solution on the marker pattern, strip
each fragment, and keep only the non-empty fragments. -/
def pyAnswers (sol : Str) : List Str :=
  ((pySplitMarkers sol).map pyStrip).filter (fun a => decide (a ≠ []))

theorem markerMatch_none_of_head {c : Char} (cs : Str) (h1 : isPySpace c = false)
    (h2 : c.isDigit = false) : markerMatch (c :: cs) = none := by
  simp [markerMatch, List.dropWhile_cons, List.takeWhile_cons, h1, h2]

theorem splitRun_skip : ∀ (a mrest acc : Str),
    (∀ c ∈ a, isPySpace c = false ∧ c.isDigit = false) →
    splitRun (a ++ mrest) acc = splitRun mrest (a.reverse ++ acc)
  | [], mrest, acc, _ => by simp
  | c :: a2, mrest, acc, h => by
    have hc := h c (by simp)
    rw [List.cons_append, splitRun_cons_none acc (markerMatch_none_of_head _ hc.1 hc.2)]
    rw [splitRun_skip a2 mrest (c :: acc) (fun x hx => h x (by simp [hx]))]
    simp

theorem splitRun_no_match : ∀ (b acc : Str),
    (∀ c ∈ b, isPySpace c = false ∧ c.isDigit = false) →
    splitRun b acc = [acc.reverse ++ b]
  | [], acc, _ => by simp [splitRun_nil]
  | c :: b2, acc, h => by
    have hc := h c (by simp)
    rw [splitRun_cons_none acc (markerMatch_none_of_head _ hc.1 hc.2)]
    rw [splitRun_no_match b2 (c :: acc) (fun x hx => h x (by simp [hx]))]
    simp

theorem markerMatch_digit_dot {b : Str} (hb : ∀ c ∈ b, isPySpace c = false) :
    markerMatch ('3' :: '.' :: b) = some b := by
  have e1 : isPySpace '3' = false := by decide
  have e2 : Char.isDigit '3' = true := by decide
  have e3 : Char.isDigit '.' = false := by decide
  simp [markerMatch, List.dropWhile_cons, List.takeWhile_cons, e1, e2, e3,
    dropWhile_no_ws hb]

/-- C4 counterexample: the claim says a digits-plus-period occurrence
strictly inside a line never creates an answer boundary, so the marker-free
single line below should come back as one single answer; the code instead
splits it at the embedded "3." of "3.14", producing two answers. -/
theorem segmenter_line_start_cex :
    pyAnswers ("Pi is about 3.14 roughly".data)
        = ["Pi is about".data, "14 roughly".data] ∧
    pyAnswers ("Pi is about 3.14 roughly".data)
        ≠ [pyStrip ("Pi is about 3.14 roughly".data)] := by
  constructor
  · decide
  · decide

/-- C4 amended: the Answer Segmenter splits SolutionText at every
occurrence of the digits-plus-period marker, wherever it occurs — the
marker need not be at the start of the text or of a line, and a
digits-plus-period occurrence strictly inside a line of an answer body does
create an answer boundary (the surrounding whitespace is consumed with the
marker). Below, a marker placed strictly inside a single line made of
non-digit, non-whitespace characters splits it into two answers. -/
theorem segmenter_splits_inside_line (a b : Str) (ha0 : a ≠ []) (hb0 : b ≠ [])
    (ha : ∀ c ∈ a, isPySpace c = false ∧ c.isDigit = false)
    (hb : ∀ c ∈ b, isPySpace c = false ∧ c.isDigit = false) :
    pyAnswers (a ++ '3' :: '.' :: b) = [a, b] := by
  unfold pyAnswers pySplitMarkers
  rw [splitRun_skip a ('3' :: '.' :: b) [] ha]
  rw [splitRun_cons_some _ (markerMatch_digit_dot (fun c hc => (hb c hc).1))]
  rw [splitRun_no_match b [] hb]
  simp [pyStrip_no_ws (fun c hc => (ha c hc).1), pyStrip_no_ws (fun c hc => (hb c hc).1),
    ha0, hb0]

theorem segmenter_splits_inside_line_w :
    pyAnswers (['x'] ++ '3' :: '.' :: ['y']) = [['x'], ['y']] :=
  segmenter_splits_inside_line ['x'] ['y'] (by decide) (by decide) (by decide) (by decide)

/-- The kind of a placement: per-page header overlay text, an answer number
label, or a wrapped body line. -/
inductive Kind
  | header
  | label
  | body
deriving DecidableEq

/-- A placement instruction: draw `text` at coordinates `(x, y)` on page
`page` (pages are numbered from 1, y grows downward). -/
structure Instr where
  kind : Kind
  text : Str
  x : ℚ
  y : ℚ
  page : ℕ
deriving DecidableEq

/-- The paginator cursor: current vertical offset and current page index. -/
structure RState where
  y : ℚ
  page : ℕ
deriving DecidableEq

/-- Model of `if y > 285: pdf.add_page(); y = 38` (lines 293-295 and
305-307): on overflow a new page is begun — which makes the library draw
that page's header overlay, modelled by `hdr` — and the cursor is reset to
the top margin 38 on the incremented page. -/
def pageCheck (hdr : ℕ → List Instr) (st : RState) : List Instr × RState :=
  if st.y > 285 then (hdr (st.page + 1), ⟨38, st.page + 1⟩) else ([], st)

/-- The number label text of line 281. -/
def numLabel (n : ℕ) : Str := (Nat.repr n).data ++ ['.']

/-- Model of the word loop of lines 286-295: accumulate words into
`current_line`; when the fit test fails, emit the trimmed buffer at
`(margin_x, y)` with `margin_x = 30`, advance `y` by `line_height = 11`,
restart the buffer as the word plus a trailing space, and run the
page-break check. Returns the emitted instructions, the final buffer and
the final cursor. -/
def wrapStepLoop (m : Str → ℚ) (hdr : ℕ → List Instr) :
    List Str → Str → RState → List Instr × Str × RState
  | [], cl, st => ([], cl, st)
  | w :: ws, cl, st =>
    if m (cl ++ w ++ [' ']) < 180 then
      wrapStepLoop m hdr ws (cl ++ w ++ [' ']) st
    else
      (Instr.mk .body (pyStrip cl) 30 st.y st.page ::
          (pageCheck hdr ⟨st.y + 11, st.page⟩).1 ++
          (wrapStepLoop m hdr ws (w ++ [' ']) (pageCheck hdr ⟨st.y + 11, st.page⟩).2).1,
        (wrapStepLoop m hdr ws (w ++ [' ']) (pageCheck hdr ⟨st.y + 11, st.page⟩).2).2)

/-- Model of lines 297-299: a non-empty final buffer is emitted trimmed at
`(margin_x, y)` and `y` advances one line height. -/
def finalizeLine (cl : Str) (st : RState) : List Instr × RState :=
  if cl ≠ [] then ([Instr.mk .body (pyStrip cl) 30 st.y st.page], ⟨st.y + 11, st.page⟩)
  else ([], st)

/-- Model of one iteration of the answer loop (lines 279-307): draw the
number label at `(number_x, y)` with `number_x = 18.1 = 181/10`, run the
word loop on the whitespace-split body, emit a non-empty final buffer,
advance `y` by the inter-answer gap 4, and run the page-break check. -/
def renderAnswer (m : Str → ℚ) (hdr : ℕ → List Instr) (n : ℕ) (ans : Str)
    (st : RState) : List Instr × RState :=
  (Instr.mk .label (numLabel n) (181/10) st.y st.page ::
      (wrapStepLoop m hdr (pyWords ans) [] st).1 ++
      (finalizeLine (wrapStepLoop m hdr (pyWords ans) [] st).2.1
        (wrapStepLoop m hdr (pyWords ans) [] st).2.2).1 ++
      (pageCheck hdr
        ⟨(finalizeLine (wrapStepLoop m hdr (pyWords ans) [] st).2.1
            (wrapStepLoop m hdr (pyWords ans) [] st).2.2).2.y + 4,
          (finalizeLine (wrapStepLoop m hdr (pyWords ans) [] st).2.1
            (wrapStepLoop m hdr (pyWords ans) [] st).2.2).2.page⟩).1,
    (pageCheck hdr
      ⟨(finalizeLine (wrapStepLoop m hdr (pyWords ans) [] st).2.1
          (wrapStepLoop m hdr (pyWords ans) [] st).2.2).2.y + 4,
        (finalizeLine (wrapStepLoop m hdr (pyWords ans) [] st).2.1
          (wrapStepLoop m hdr (pyWords ans) [] st).2.2).2.page⟩).2)

/-- Model of the whole answer loop, numbering answers from `n`. -/
def renderAnswers (m : Str → ℚ) (hdr : ℕ → List Instr) :
    ℕ → List Str → RState → List Instr × RState
  | _, [], st => ([], st)
  | n, a :: as, st =>
    ((renderAnswer m hdr n a st).1 ++
        (renderAnswers m hdr (n + 1) as (renderAnswer m hdr n a st).2).1,
      (renderAnswers m hdr (n + 1) as (renderAnswer m hdr n a st).2).2)

/-- Model of `HandwrittenPDF.header` (lines 176-180): on every page the
student name is drawn centred, at `x = 105 - measure(name)/2`, height 17,
font size 36, and the roll number centred, at `x = 105 - measure(roll)/2`,
height 24, font size 32. `m` is the size-indexed measure. -/
def headerOf (m : ℕ → Str → ℚ) (nm rl : Str) (p : ℕ) : List Instr :=
  [Instr.mk .header nm (105 - m 36 nm / 2) 17 p,
   Instr.mk .header rl (105 - m 32 rl / 2) 24 p]

/-- Model of the full PDF generation (lines 253-307): one initial page with
its header overlay, then the answer loop on the segmented answers, started
at `y = 38`, `page = 1`, `number = 1`; body text is measured at the body
font size 36. Returns the instruction stream and the final cursor. -/
def render (m : ℕ → Str → ℚ) (nm rl : Str) (sol : Str) : List Instr × RState :=
  (headerOf m nm rl 1 ++
      (renderAnswers (m 36) (headerOf m nm rl) 1 (pyAnswers sol) ⟨38, 1⟩).1,
    (renderAnswers (m 36) (headerOf m nm rl) 1 (pyAnswers sol) ⟨38, 1⟩).2)

/-- C9: when the fit test fails while the current line buffer is empty (in
particular on the first word of an answer with
`measure (word ++ " ") ≥ max_width`), the word loop emits an instruction
whose text is the empty string at `(margin_x, y) = (30, y)`, advances `y`
by one line height (running the page-break check on the advanced cursor),
and only then restarts with the over-wide word as the new buffer — so the
over-wide word consumes two line advances and a blank line instruction
appears in the output stream. -/
theorem blank_line_overwide_first_word (m : Str → ℚ) (hdr : ℕ → List Instr)
    (w : Str) (ws : List Str) (st : RState) (h : ¬ m (w ++ [' ']) < 180) :
    wrapStepLoop m hdr (w :: ws) [] st =
      (Instr.mk .body [] 30 st.y st.page ::
          (pageCheck hdr ⟨st.y + 11, st.page⟩).1 ++
          (wrapStepLoop m hdr ws (w ++ [' ']) (pageCheck hdr ⟨st.y + 11, st.page⟩).2).1,
        (wrapStepLoop m hdr ws (w ++ [' ']) (pageCheck hdr ⟨st.y + 11, st.page⟩).2).2) := by
  rw [wrapStepLoop]
  simp only [List.nil_append, if_neg h]
  rfl

theorem blank_line_overwide_first_word_w :
    (¬ (fun _ => (200:ℚ)) (['a'] ++ [' ']) < 180) ∧
    wrapStepLoop (fun _ => (200:ℚ)) (fun _ => []) [['a']] [] ⟨38, 1⟩ =
      (Instr.mk .body [] 30 (38:ℚ) 1 ::
          (pageCheck (fun _ => []) ⟨38 + 11, 1⟩).1 ++
          (wrapStepLoop (fun _ => (200:ℚ)) (fun _ => []) [] (['a'] ++ [' '])
            (pageCheck (fun _ => []) ⟨38 + 11, 1⟩).2).1,
        (wrapStepLoop (fun _ => (200:ℚ)) (fun _ => []) [] (['a'] ++ [' '])
          (pageCheck (fun _ => []) ⟨38 + 11, 1⟩).2).2) :=
  ⟨by norm_num,
   blank_line_overwide_first_word (fun _ => (200:ℚ)) (fun _ => []) ['a'] [] ⟨38, 1⟩
     (by norm_num)⟩

/-- A header callback that draws nothing (used to study the paginator's own
placements in isolation). -/
def hdrNone : ℕ → List Instr := fun _ => ([] : List Instr)

theorem wrapGreedy_ne_nil (m : Str → ℚ) :
    ∀ (ws : List Str) (cl : Str), cl ≠ [] → wrapGreedy m ws cl ≠ []
  | [], cl, hcl => by simp [wrapGreedy, hcl]
  | w :: ws, cl, _ => by
    unfold wrapGreedy
    split
    · exact wrapGreedy_ne_nil m ws (cl ++ w ++ [' ']) (by simp)
    · simp

/-- Spec-style placement of already wrapped lines under the amended rule:
each line is emitted at `(30, y)` and `y` then advances by 11; the
page-break check runs immediately after the advance for every line except
the last line of the answer. -/
def placeLines (hdr : ℕ → List Instr) : List Str → RState → List Instr × RState
  | [], st => ([], st)
  | [l], st => ([Instr.mk .body l 30 st.y st.page], ⟨st.y + 11, st.page⟩)
  | l :: l2 :: ls, st =>
    (Instr.mk .body l 30 st.y st.page ::
        (pageCheck hdr ⟨st.y + 11, st.page⟩).1 ++
        (placeLines hdr (l2 :: ls) (pageCheck hdr ⟨st.y + 11, st.page⟩).2).1,
      (placeLines hdr (l2 :: ls) (pageCheck hdr ⟨st.y + 11, st.page⟩).2).2)

theorem wrap_decompose (m : Str → ℚ) (hdr : ℕ → List Instr) :
    ∀ (ws : List Str) (cl : Str) (st : RState),
    (wrapStepLoop m hdr ws cl st).1 ++
        (finalizeLine (wrapStepLoop m hdr ws cl st).2.1
          (wrapStepLoop m hdr ws cl st).2.2).1
      = (placeLines hdr (wrapGreedy m ws cl) st).1 ∧
    (finalizeLine (wrapStepLoop m hdr ws cl st).2.1
        (wrapStepLoop m hdr ws cl st).2.2).2
      = (placeLines hdr (wrapGreedy m ws cl) st).2
  | [], cl, st => by
    by_cases hcl : cl = []
    · subst hcl
      simp [wrapStepLoop, wrapGreedy, finalizeLine, placeLines]
    · simp [wrapStepLoop, wrapGreedy, finalizeLine, placeLines, hcl]
  | w :: ws, cl, st => by
    by_cases hfit : m (cl ++ w ++ [' ']) < 180
    · simp only [wrapStepLoop, wrapGreedy, if_pos hfit]
      exact wrap_decompose m hdr ws (cl ++ w ++ [' ']) st
    · have hne : wrapGreedy m ws (w ++ [' ']) ≠ [] :=
        wrapGreedy_ne_nil m ws (w ++ [' ']) (by simp)
      cases hG : wrapGreedy m ws (w ++ [' ']) with
      | nil => exact absurd hG hne
      | cons g gs =>
        have ih := wrap_decompose m hdr ws (w ++ [' '])
          (pageCheck hdr ⟨st.y + 11, st.page⟩).2
        rw [hG] at ih
        simp only [wrapStepLoop, wrapGreedy, if_neg hfit, hG, placeLines]
        constructor
        · rw [← ih.1]
          simp [List.append_assoc]
        · exact ih.2

/-- Per-answer rendering in the spec's style under the amended page-break
rule: label, then placement of the greedily wrapped lines (check after each
advance except the answer's last line), then the gap advance followed by a
single page-break check. -/
def renderAnswerW (m : Str → ℚ) (hdr : ℕ → List Instr) (n : ℕ) (ans : Str)
    (st : RState) : List Instr × RState :=
  (Instr.mk .label (numLabel n) (181/10) st.y st.page ::
      (placeLines hdr (wrapGreedy m (pyWords ans) []) st).1 ++
      (pageCheck hdr ⟨(placeLines hdr (wrapGreedy m (pyWords ans) []) st).2.y + 4,
          (placeLines hdr (wrapGreedy m (pyWords ans) []) st).2.page⟩).1,
    (pageCheck hdr ⟨(placeLines hdr (wrapGreedy m (pyWords ans) []) st).2.y + 4,
        (placeLines hdr (wrapGreedy m (pyWords ans) []) st).2.page⟩).2)

/-- The answer loop built on `renderAnswerW`. -/
def renderAnswersW (m : Str → ℚ) (hdr : ℕ → List Instr) :
    ℕ → List Str → RState → List Instr × RState
  | _, [], st => ([], st)
  | n, a :: as, st =>
    ((renderAnswerW m hdr n a st).1 ++
        (renderAnswersW m hdr (n + 1) as (renderAnswerW m hdr n a st).2).1,
      (renderAnswersW m hdr (n + 1) as (renderAnswerW m hdr n a st).2).2)

theorem renderAnswer_eq_W (m : Str → ℚ) (hdr : ℕ → List Instr) (n : ℕ) (ans : Str)
    (st : RState) : renderAnswer m hdr n ans st = renderAnswerW m hdr n ans st := by
  unfold renderAnswer renderAnswerW
  have h := wrap_decompose m hdr (pyWords ans) [] st
  rw [← h.1, ← h.2]
  simp [List.append_assoc]

/-- Placement of wrapped lines following the claimed rule of C1: the
page-break check runs immediately after every line advance, including the
advance of the answer's final line, before any further instruction. -/
def placeLinesAll (hdr : ℕ → List Instr) : List Str → RState → List Instr × RState
  | [], st => ([], st)
  | l :: ls, st =>
    (Instr.mk .body l 30 st.y st.page ::
        (pageCheck hdr ⟨st.y + 11, st.page⟩).1 ++
        (placeLinesAll hdr ls (pageCheck hdr ⟨st.y + 11, st.page⟩).2).1,
      (placeLinesAll hdr ls (pageCheck hdr ⟨st.y + 11, st.page⟩).2).2)

/-- Per-answer rendering as claim C1 states it: the check also fires right
after the final line's advance, before the inter-answer gap advance. -/
def renderAnswerC (m : Str → ℚ) (hdr : ℕ → List Instr) (n : ℕ) (ans : Str)
    (st : RState) : List Instr × RState :=
  (Instr.mk .label (numLabel n) (181/10) st.y st.page ::
      (placeLinesAll hdr (wrapGreedy m (pyWords ans) []) st).1 ++
      (pageCheck hdr ⟨(placeLinesAll hdr (wrapGreedy m (pyWords ans) []) st).2.y + 4,
          (placeLinesAll hdr (wrapGreedy m (pyWords ans) []) st).2.page⟩).1,
    (pageCheck hdr ⟨(placeLinesAll hdr (wrapGreedy m (pyWords ans) []) st).2.y + 4,
        (placeLinesAll hdr (wrapGreedy m (pyWords ans) []) st).2.page⟩).2)

/-- The answer loop built on `renderAnswerC`. -/
def renderAnswersC (m : Str → ℚ) (hdr : ℕ → List Instr) :
    ℕ → List Str → RState → List Instr × RState
  | _, [], st => ([], st)
  | n, a :: as, st =>
    ((renderAnswerC m hdr n a st).1 ++
        (renderAnswersC m hdr (n + 1) as (renderAnswerC m hdr n a st).2).1,
      (renderAnswersC m hdr (n + 1) as (renderAnswerC m hdr n a st).2).2)

/-- C1 counterexample: with a measure that always fits (the answer is one
single line) and one one-word answer starting at y = 280, the final (and
only) line is emitted at 280 and `y` advances to 291 > 285. Under the
claimed rule the page break fires immediately — before the inter-answer gap
— leaving the cursor at y = 38 + 4 = 42 of page 2; the code instead applies
the gap first (y = 295) and only then breaks, leaving y = 38 of page 2. The
renderers disagree, so the paginator does not satisfy the claimed rule. -/
theorem page_break_timing_cex :
    renderAnswers (fun _ => (0:ℚ)) hdrNone 1 [['a']] ⟨280, 1⟩ ≠
      renderAnswersC (fun _ => (0:ℚ)) hdrNone 1 [['a']] ⟨280, 1⟩ := by
  have hw : pyWords ['a'] = [['a']] := by decide
  have hfin : ∀ st : RState, finalizeLine ['a', ' '] st
      = ([Instr.mk .body (pyStrip ['a', ' ']) 30 st.y st.page], ⟨st.y + 11, st.page⟩) :=
    fun st => by simp [finalizeLine]
  have h1 : (renderAnswers (fun _ => (0:ℚ)) hdrNone 1 [['a']] ⟨280, 1⟩).2.y = 38 := by
    norm_num [renderAnswers, renderAnswer, hw, wrapStepLoop, hfin, pageCheck, hdrNone]
  have h2 : (renderAnswersC (fun _ => (0:ℚ)) hdrNone 1 [['a']] ⟨280, 1⟩).2.y = 42 := by
    norm_num [renderAnswersC, renderAnswerC, hw, wrapGreedy, placeLinesAll, pageCheck,
      hdrNone]
  intro h
  have h3 := congrArg (fun r => r.2.y) h
  simp only at h3
  rw [h1, h2] at h3
  norm_num at h3

/-- C1 amended: after each emitted wrapped line other than the last line of
an answer, `y` advances by `line_height` and, whenever `y` then exceeds
`bottom_y_limit`, a new page begins immediately (page incremented, `y`
reset to `top_y`) before the next line's placement; after the last emitted
line of an answer, `y` advances by `line_height` and then by the
inter-answer gap, and only a single page-break check runs, after the gap
advance. -/
theorem page_break_timing_amended (m : Str → ℚ) (hdr : ℕ → List Instr) :
    ∀ (n : ℕ) (as : List Str) (st : RState),
    renderAnswers m hdr n as st = renderAnswersW m hdr n as st
  | _, [], _ => rfl
  | n, a :: as, st => by
    simp only [renderAnswers, renderAnswersW, renderAnswer_eq_W m hdr n a st,
      page_break_timing_amended m hdr (n + 1) as (renderAnswerW m hdr n a st).2]

/-- Recognizer for header-overlay instructions. -/
def isHeader : Instr → Bool
  | ⟨Kind.header, _, _, _, _⟩ => true
  | _ => false

/-- Recognizer for wrapped body-line instructions. -/
def isBody : Instr → Bool
  | ⟨Kind.body, _, _, _, _⟩ => true
  | _ => false

/-- Recognizer for the paginator's own placements (labels and body lines). -/
def nonHeader (i : Instr) : Bool := !(isHeader i)

theorem pageCheck_snd (hdr1 hdr2 : ℕ → List Instr) (st : RState) :
    (pageCheck hdr1 st).2 = (pageCheck hdr2 st).2 := by
  unfold pageCheck
  split <;> rfl

theorem pageCheck_none_fst (st : RState) : (pageCheck hdrNone st).1 = [] := by
  unfold pageCheck hdrNone
  split <;> rfl

theorem pageCheck_filter (p : Instr → Bool) (hdr : ℕ → List Instr)
    (hp : ∀ pg, (hdr pg).filter p = []) (st : RState) :
    (pageCheck hdr st).1.filter p = [] := by
  unfold pageCheck
  split
  · exact hp _
  · rfl

theorem wsl_transfer (m : Str → ℚ) (p : Instr → Bool) (hdr : ℕ → List Instr)
    (hp : ∀ pg, (hdr pg).filter p = []) :
    ∀ (ws : List Str) (cl : Str) (st : RState),
    (wrapStepLoop m hdr ws cl st).1.filter p
        = (wrapStepLoop m hdrNone ws cl st).1.filter p ∧
    (wrapStepLoop m hdr ws cl st).2 = (wrapStepLoop m hdrNone ws cl st).2
  | [], cl, st => ⟨rfl, rfl⟩
  | w :: ws, cl, st => by
    by_cases hfit : m (cl ++ w ++ [' ']) < 180
    · simp only [wrapStepLoop, if_pos hfit]
      exact wsl_transfer m p hdr hp ws (cl ++ w ++ [' ']) st
    · have hpc : (pageCheck hdr ⟨st.y + 11, st.page⟩).2
          = (pageCheck hdrNone ⟨st.y + 11, st.page⟩).2 := pageCheck_snd hdr hdrNone _
      have ih := wsl_transfer m p hdr hp ws (w ++ [' '])
        (pageCheck hdrNone ⟨st.y + 11, st.page⟩).2
      simp only [wrapStepLoop, if_neg hfit, hpc]
      refine ⟨?_, ih.2⟩
      simp only [List.filter_cons, List.filter_append,
        pageCheck_filter p hdr hp, pageCheck_none_fst, List.filter_nil,
        List.nil_append, ih.1]

theorem wsl_none_kinds (m : Str → ℚ) :
    ∀ (ws : List Str) (cl : Str) (st : RState),
    ∀ i ∈ (wrapStepLoop m hdrNone ws cl st).1, i.kind = Kind.body
  | [], cl, st => by simp [wrapStepLoop]
  | w :: ws, cl, st => by
    by_cases hfit : m (cl ++ w ++ [' ']) < 180
    · simp only [wrapStepLoop, if_pos hfit]
      exact wsl_none_kinds m ws (cl ++ w ++ [' ']) st
    · simp only [wrapStepLoop, if_neg hfit, pageCheck_none_fst, List.nil_append]
      intro i hi
      rcases List.mem_cons.mp hi with rfl | hi2
      · rfl
      · exact wsl_none_kinds m ws (w ++ [' ']) _ i hi2

theorem finalizeLine_filter_body (cl : Str) (st : RState) :
    (finalizeLine cl st).1.filter isBody = (finalizeLine cl st).1 := by
  unfold finalizeLine
  split <;> simp [isBody]

theorem placeLines_none_texts : ∀ (ls : List Str) (st : RState),
    (placeLines hdrNone ls st).1.map (fun i => i.text) = ls
  | [], _ => rfl
  | [l], _ => rfl
  | l :: l2 :: ls, st => by
    simp [placeLines, pageCheck_none_fst,
      placeLines_none_texts (l2 :: ls) (pageCheck hdrNone ⟨st.y + 11, st.page⟩).2]

theorem isBody_of_kind {i : Instr} (h : i.kind = Kind.body) : isBody i = true := by
  cases i with
  | mk k t x y p =>
    simp only at h
    subst h
    rfl

/-- C3: the Line Wrapper's greedy rule. The body-line placements emitted by
one answer iteration of the code carry, in order, exactly the lines of the
spec-side greedy wrap `wrapGreedy`: a candidate word is appended to the
line buffer if and only if `measure (buffer ++ word ++ " ")` is strictly
below `max_width = 180`; otherwise the trimmed buffer is emitted as a
completed line and the buffer restarts as exactly the candidate word plus
a trailing space; after all words, a non-empty buffer is emitted trimmed
as a final line. -/
theorem wrapper_greedy_rule (m : Str → ℚ) (mh : ℕ → Str → ℚ) (nm rl : Str) (n : ℕ)
    (ans : Str) (st : RState) :
    ((renderAnswer m (headerOf mh nm rl) n ans st).1.filter isBody).map (fun i => i.text)
      = wrapGreedy m (pyWords ans) [] := by
  have hp : ∀ pg, (headerOf mh nm rl pg).filter isBody = [] := by
    intro pg
    simp [headerOf, isBody]
  have ht := wsl_transfer m isBody (headerOf mh nm rl) hp (pyWords ans) [] st
  have hd := wrap_decompose m hdrNone (pyWords ans) [] st
  unfold renderAnswer
  dsimp only
  simp only [List.filter_append]
  rw [List.filter_cons_of_neg (by simp [isBody])]
  rw [pageCheck_filter isBody (headerOf mh nm rl) hp, List.append_nil]
  rw [ht.1, ht.2, finalizeLine_filter_body]
  rw [List.filter_eq_self.mpr
    (fun i hi => isBody_of_kind (wsl_none_kinds m (pyWords ans) [] st i hi))]
  rw [hd.1, placeLines_none_texts]

/-- State transformer of the page-break check. -/
def pcState (st : RState) : RState :=
  if st.y > 285 then ⟨38, st.page + 1⟩ else st

theorem pageCheck_none (st : RState) : pageCheck hdrNone st = ([], pcState st) := by
  unfold pageCheck pcState hdrNone
  split <;> rfl

/-- Step relation of the paginator invariants: between two consecutive
placements, either the page is unchanged and y does not decrease, or the
page advances by exactly one and the new placement sits at the top margin
y = 38. -/
def pstep (a b : Instr) : Prop :=
  (b.page = a.page ∧ a.y ≤ b.y) ∨ (b.page = a.page + 1 ∧ b.y = 38)

/-- Link between the last placement of a block and the cursor state the
block leaves behind. -/
def linkOK (i : Instr) (st : RState) : Prop :=
  (st.page = i.page ∧ i.y ≤ st.y) ∨ (st.page = i.page + 1 ∧ st.y = 38)

/-- A block of placements `out` produced from entry cursor `st` and leaving
cursor `st2`: consecutive placements satisfy `pstep`, the first placement
sits exactly at the entry cursor, an empty block leaves the cursor alone,
and the exit cursor is reachable from the last placement. -/
def emits (st : RState) (out : List Instr) (st2 : RState) : Prop :=
  List.Chain' pstep out ∧
  (∀ i, out.head? = some i → i.y = st.y ∧ i.page = st.page) ∧
  (out = [] → st2 = st) ∧
  (∀ i, out.getLast? = some i → linkOK i st2)

theorem emits_nil {st : RState} : emits st [] st := by
  refine ⟨List.chain'_nil, ?_, ?_, ?_⟩
  · intro i h
    cases h
  · intro _
    rfl
  · intro i h
    cases h

theorem emits_single {st st2 : RState} {i : Instr} (hy : i.y = st.y)
    (hp : i.page = st.page) (hl : linkOK i st2) : emits st [i] st2 := by
  refine ⟨List.chain'_singleton i, ?_, ?_, ?_⟩
  · intro j hj
    cases hj
    exact ⟨hy, hp⟩
  · intro h
    cases h
  · intro j hj
    cases hj
    exact hl

theorem emits_append {st st1 st2 : RState} {o1 o2 : List Instr}
    (h1 : emits st o1 st1) (h2 : emits st1 o2 st2) : emits st (o1 ++ o2) st2 := by
  obtain ⟨c1, h1h, h1e, h1l⟩ := h1
  obtain ⟨c2, h2h, h2e, h2l⟩ := h2
  refine ⟨?_, ?_, ?_, ?_⟩
  · rw [List.chain'_append]
    refine ⟨c1, c2, ?_⟩
    intro x hx y hy
    have hx2 := h1l x hx
    have hy2 := h2h y hy
    rcases hx2 with ⟨hp, hyle⟩ | ⟨hp, h38⟩
    · exact Or.inl ⟨by rw [hy2.2, hp], by rw [hy2.1]; exact hyle⟩
    · exact Or.inr ⟨by rw [hy2.2, hp], by rw [hy2.1, h38]⟩
  · intro i hi
    cases o1 with
    | nil =>
      rw [h1e rfl] at h2h
      exact h2h i (by simpa using hi)
    | cons a l =>
      exact h1h i (by simpa using hi)
  · intro h
    rcases List.append_eq_nil.mp h with ⟨e1, e2⟩
    rw [h2e e2, h1e e1]
  · intro i hi
    rw [List.getLast?_append] at hi
    cases ho2 : o2 with
    | nil =>
      subst ho2
      rw [h2e rfl]
      exact h1l i (by simpa using hi)
    | cons b l =>
      subst ho2
      cases hbl : (b :: l).getLast? with
      | none => simp [List.getLast?] at hbl
      | some j =>
        rw [hbl] at hi
        cases hi
        exact h2l i hbl

theorem linkOK_pcState {i : Instr} {st : RState} (hy : i.y ≤ st.y)
    (hp : i.page = st.page) : linkOK i (pcState st) := by
  unfold pcState linkOK
  split
  · exact Or.inr ⟨by rw [hp], rfl⟩
  · exact Or.inl ⟨by rw [hp], hy⟩

theorem wsl_buffer (m : Str → ℚ) (hdr : ℕ → List Instr) :
    ∀ (ws : List Str) (cl : Str) (st : RState), ws ≠ [] →
    (wrapStepLoop m hdr ws cl st).2.1 ≠ []
  | [], _, _, h => absurd rfl h
  | w :: ws, cl, st, _ => by
    by_cases hfit : m (cl ++ w ++ [' ']) < 180
    · simp only [wrapStepLoop, if_pos hfit]
      cases ws with
      | nil => simp [wrapStepLoop]
      | cons w2 ws2 => exact wsl_buffer m hdr (w2 :: ws2) _ st (by simp)
    · simp only [wrapStepLoop, if_neg hfit]
      cases ws with
      | nil => simp [wrapStepLoop]
      | cons w2 ws2 => exact wsl_buffer m hdr (w2 :: ws2) _ _ (by simp)

theorem wsl_emits (m : Str → ℚ) : ∀ (ws : List Str) (cl : Str) (st : RState),
    emits st (wrapStepLoop m hdrNone ws cl st).1 (wrapStepLoop m hdrNone ws cl st).2.2
  | [], _, _ => emits_nil
  | w :: ws, cl, st => by
    by_cases hfit : m (cl ++ w ++ [' ']) < 180
    · simp only [wrapStepLoop, if_pos hfit]
      exact wsl_emits m ws (cl ++ w ++ [' ']) st
    · simp only [wrapStepLoop, if_neg hfit, pageCheck_none]
      try dsimp only
      have ih := wsl_emits m ws (w ++ [' ']) (pcState ⟨st.y + 11, st.page⟩)
      have hlink : linkOK (Instr.mk .body (pyStrip cl) 30 st.y st.page)
          (pcState ⟨st.y + 11, st.page⟩) :=
        linkOK_pcState (by show st.y ≤ st.y + 11; linarith) rfl
      have h0 : emits st [Instr.mk .body (pyStrip cl) 30 st.y st.page]
          (pcState ⟨st.y + 11, st.page⟩) := emits_single rfl rfl hlink
      have hc := emits_append h0 ih
      simpa using hc

theorem finalizeLine_kinds (cl : Str) (st : RState) :
    ∀ i ∈ (finalizeLine cl st).1, i.kind = Kind.body := by
  unfold finalizeLine
  split
  · intro i hi
    cases hi with
    | head => rfl
    | tail _ h => cases h
  · intro i hi
    cases hi

theorem renderAnswer_emits (m : Str → ℚ) (n : ℕ) (ans : Str) (st : RState) :
    emits st (renderAnswer m hdrNone n ans st).1 (renderAnswer m hdrNone n ans st).2 := by
  unfold renderAnswer
  by_cases hws : pyWords ans = []
  · rw [hws]
    have h1 : wrapStepLoop m hdrNone [] ([]:Str) st = ([], [], st) := rfl
    rw [h1]
    try dsimp only
    have h2 : finalizeLine [] st = ([], st) := rfl
    rw [h2]
    try dsimp only
    rw [pageCheck_none]
    try dsimp only
    simp only [List.append_nil]
    exact emits_single rfl rfl
      (linkOK_pcState (by show st.y ≤ st.y + 4; linarith) rfl)
  · have hbuf := wsl_buffer m hdrNone (pyWords ans) [] st hws
    have eA := wsl_emits m (pyWords ans) [] st
    set A := (wrapStepLoop m hdrNone (pyWords ans) [] st).1 with hA
    set cl2 := (wrapStepLoop m hdrNone (pyWords ans) [] st).2.1 with hcl2
    set st1 := (wrapStepLoop m hdrNone (pyWords ans) [] st).2.2 with hst1
    have hfin : finalizeLine cl2 st1
        = ([Instr.mk .body (pyStrip cl2) 30 st1.y st1.page], ⟨st1.y + 11, st1.page⟩) := by
      unfold finalizeLine
      rw [if_pos hbuf]
    rw [hfin]
    try dsimp only
    rw [pageCheck_none]
    try dsimp only
    simp only [List.append_nil]
    have e0 : emits st [Instr.mk .label (numLabel n) (181/10) st.y st.page] st :=
      emits_single rfl rfl (Or.inl ⟨rfl, le_refl _⟩)
    have e2 : emits st1 [Instr.mk .body (pyStrip cl2) 30 st1.y st1.page]
        (pcState ⟨st1.y + 11 + 4, st1.page⟩) :=
      emits_single rfl rfl
        (linkOK_pcState (by show st1.y ≤ st1.y + 11 + 4; linarith) rfl)
    have hc := emits_append e0 (emits_append eA e2)
    simpa using hc

theorem renderAnswers_emits (m : Str → ℚ) : ∀ (n : ℕ) (as : List Str) (st : RState),
    emits st (renderAnswers m hdrNone n as st).1 (renderAnswers m hdrNone n as st).2
  | _, [], _ => emits_nil
  | n, a :: as, st => by
    simp only [renderAnswers]
    exact emits_append (renderAnswer_emits m n a st)
      (renderAnswers_emits m (n + 1) as (renderAnswer m hdrNone n a st).2)

theorem ra_transfer (m : Str → ℚ) (p : Instr → Bool) (hdr : ℕ → List Instr)
    (hp : ∀ pg, (hdr pg).filter p = []) (n : ℕ) (ans : Str) (st : RState) :
    (renderAnswer m hdr n ans st).1.filter p
        = (renderAnswer m hdrNone n ans st).1.filter p ∧
    (renderAnswer m hdr n ans st).2 = (renderAnswer m hdrNone n ans st).2 := by
  have ht := wsl_transfer m p hdr hp (pyWords ans) [] st
  unfold renderAnswer
  dsimp only
  constructor
  · simp only [List.filter_append]
    rw [pageCheck_filter p hdr hp, pageCheck_filter p hdrNone (fun _ => rfl)]
    rw [List.filter_cons, List.filter_cons, ht.1, ht.2]
  · rw [ht.2]
    exact pageCheck_snd hdr hdrNone _

theorem ras_transfer (m : Str → ℚ) (p : Instr → Bool) (hdr : ℕ → List Instr)
    (hp : ∀ pg, (hdr pg).filter p = []) : ∀ (n : ℕ) (as : List Str) (st : RState),
    (renderAnswers m hdr n as st).1.filter p
        = (renderAnswers m hdrNone n as st).1.filter p ∧
    (renderAnswers m hdr n as st).2 = (renderAnswers m hdrNone n as st).2
  | _, [], _ => ⟨rfl, rfl⟩
  | n, a :: as, st => by
    have h1 := ra_transfer m p hdr hp n a st
    have h2 := ras_transfer m p hdr hp (n + 1) as (renderAnswer m hdrNone n a st).2
    simp only [renderAnswers]
    constructor
    · simp only [List.filter_append, h1.1, h1.2, h2.1]
    · simp only [h1.2, h2.2]

theorem ra_none_kinds (m : Str → ℚ) (n : ℕ) (ans : Str) (st : RState) :
    ∀ i ∈ (renderAnswer m hdrNone n ans st).1,
    i.kind = Kind.label ∨ i.kind = Kind.body := by
  unfold renderAnswer
  dsimp only
  intro i hi
  simp only [pageCheck_none_fst, List.append_nil] at hi
  rcases List.mem_append.mp hi with hi1 | hi2
  · rcases List.mem_cons.mp hi1 with rfl | hi3
    · exact Or.inl rfl
    · exact Or.inr (wsl_none_kinds m (pyWords ans) [] st i hi3)
  · exact Or.inr (finalizeLine_kinds _ _ i hi2)

theorem ras_none_kinds (m : Str → ℚ) : ∀ (n : ℕ) (as : List Str) (st : RState),
    ∀ i ∈ (renderAnswers m hdrNone n as st).1,
    i.kind = Kind.label ∨ i.kind = Kind.body
  | _, [], _ => by simp [renderAnswers]
  | n, a :: as, st => by
    simp only [renderAnswers]
    intro i hi
    rcases List.mem_append.mp hi with h | h
    · exact ra_none_kinds m n a st i h
    · exact ras_none_kinds m (n + 1) as _ i h

theorem nonHeader_true {i : Instr} (h : i.kind = Kind.label ∨ i.kind = Kind.body) :
    nonHeader i = true := by
  cases i with
  | mk k t x y p =>
    rcases h with h | h <;> (simp only at h; subst h; rfl)

/-- C2: paginator invariants. For any measure and any input sequence of
answers, the paginator's own placements (the non-header instructions of the
full renderer) satisfy: between consecutive placements either the page is
unchanged and y is non-decreasing (monotonicity within a page), or the page
increases by exactly 1 and the placement is at exactly y = 38 = top_y
(reset to exactly the top margin, pages contiguous, never skipped or
decreased); the first placement sits on page 1 at y = 38. -/
theorem paginator_invariants (m : Str → ℚ) (mh : ℕ → Str → ℚ) (nm rl : Str)
    (answers : List Str) :
    List.Chain' pstep
      ((renderAnswers m (headerOf mh nm rl) 1 answers ⟨38, 1⟩).1.filter nonHeader) ∧
    (∀ i, ((renderAnswers m (headerOf mh nm rl) 1 answers ⟨38, 1⟩).1.filter
        nonHeader).head? = some i → i.page = 1 ∧ i.y = 38) := by
  have hp : ∀ pg, (headerOf mh nm rl pg).filter nonHeader = [] := by
    intro pg
    simp [headerOf, nonHeader, isHeader]
  have htr := ras_transfer m nonHeader (headerOf mh nm rl) hp 1 answers ⟨38, 1⟩
  have hself : (renderAnswers m hdrNone 1 answers ⟨38, 1⟩).1.filter nonHeader
      = (renderAnswers m hdrNone 1 answers ⟨38, 1⟩).1 :=
    List.filter_eq_self.mpr
      (fun i hi => nonHeader_true (ras_none_kinds m 1 answers ⟨38, 1⟩ i hi))
  constructor
  · rw [htr.1, hself]
    exact (renderAnswers_emits m 1 answers ⟨38, 1⟩).1
  · rw [htr.1, hself]
    intro i hi
    have h2 := (renderAnswers_emits m 1 answers ⟨38, 1⟩).2.1 i hi
    exact ⟨h2.2, h2.1⟩

theorem paginator_invariants_w :
    List.Chain' pstep
      ((renderAnswers (fun _ => (0:ℚ)) (headerOf (fun _ _ => 0) [] []) 1 [['a']]
          ⟨38, 1⟩).1.filter nonHeader) ∧
    ((Instr.mk Kind.label (numLabel 1) (181/10) 38 1).page = 1 ∧
      (Instr.mk Kind.label (numLabel 1) (181/10) 38 1).y = 38) :=
  ⟨(paginator_invariants (fun _ => (0:ℚ)) (fun _ _ => 0) [] [] [['a']]).1,
   (paginator_invariants (fun _ => (0:ℚ)) (fun _ _ => 0) [] [] [['a']]).2
     (Instr.mk Kind.label (numLabel 1) (181/10) 38 1) rfl⟩

theorem pageCheck_pos {st : RState} (hdr : ℕ → List Instr) (h : st.y > 285) :
    pageCheck hdr st = (hdr (st.page + 1), ⟨38, st.page + 1⟩) := by
  unfold pageCheck
  rw [if_pos h]

theorem pageCheck_neg {st : RState} (hdr : ℕ → List Instr) (h : ¬ st.y > 285) :
    pageCheck hdr st = ([], st) := by
  unfold pageCheck
  rw [if_neg h]

/-- The pages strictly after `a` and up to `b`, in order. -/
def pageSpan (a b : ℕ) : List ℕ := (List.range (b - a)).map (fun k => a + 1 + k)

theorem pageSpan_self (a : ℕ) : pageSpan a a = [] := by simp [pageSpan]

theorem pageSpan_succ_right {a b : ℕ} (h : a ≤ b) :
    pageSpan a (b + 1) = pageSpan a b ++ [b + 1] := by
  unfold pageSpan
  rw [show b + 1 - a = (b - a) + 1 by omega, List.range_succ, List.map_append]
  simp only [List.map_cons, List.map_nil]
  rw [show a + 1 + (b - a) = b + 1 by omega]

theorem pageSpan_cons {a b : ℕ} (h : a < b) :
    pageSpan a b = (a + 1) :: pageSpan (a + 1) b := by
  unfold pageSpan
  rw [show b - a = (b - (a + 1)) + 1 by omega, List.range_succ_eq_map]
  simp only [List.map_cons, List.map_map]
  congr 1
  exact List.map_congr_left (fun x _ => by simp only [Function.comp_apply]; omega)

theorem pageSpan_append_aux (a b : ℕ) (h : a ≤ b) :
    ∀ n : ℕ, pageSpan a b ++ pageSpan b (b + n) = pageSpan a (b + n)
  | 0 => by simp [pageSpan_self]
  | n + 1 => by
    rw [show b + (n + 1) = (b + n) + 1 from rfl,
      pageSpan_succ_right (show b ≤ b + n by omega),
      pageSpan_succ_right (show a ≤ b + n by omega),
      ← List.append_assoc, pageSpan_append_aux a b h n]

theorem pageSpan_append {a b c : ℕ} (h1 : a ≤ b) (h2 : b ≤ c) :
    pageSpan a b ++ pageSpan b c = pageSpan a c := by
  have h3 := pageSpan_append_aux a b h1 (c - b)
  rwa [show b + (c - b) = c by omega] at h3

theorem flatMap_congr {α β : Type} {f g : α → List β} :
    ∀ l : List α, (∀ a ∈ l, f a = g a) → l.flatMap f = l.flatMap g
  | [], _ => rfl
  | a :: l, h => by
    simp only [List.flatMap_cons, h a (by simp),
      flatMap_congr l (fun x hx => h x (by simp [hx]))]

theorem wsl_headers (m : Str → ℚ) (hdr : ℕ → List Instr)
    (hh : ∀ pg, (hdr pg).filter isHeader = hdr pg) :
    ∀ (ws : List Str) (cl : Str) (st : RState),
    st.page ≤ (wrapStepLoop m hdr ws cl st).2.2.page ∧
    (wrapStepLoop m hdr ws cl st).1.filter isHeader
      = (pageSpan st.page (wrapStepLoop m hdr ws cl st).2.2.page).flatMap hdr
  | [], cl, st => ⟨le_refl _, by simp [wrapStepLoop, pageSpan_self]⟩
  | w :: ws, cl, st => by
    by_cases hfit : m (cl ++ w ++ [' ']) < 180
    · simp only [wrapStepLoop, if_pos hfit]
      exact wsl_headers m hdr hh ws (cl ++ w ++ [' ']) st
    · by_cases hov : (⟨st.y + 11, st.page⟩ : RState).y > 285
      · have hpc := pageCheck_pos hdr hov
        simp only [wrapStepLoop, if_neg hfit, hpc]
        try dsimp only
        have ih := wsl_headers m hdr hh ws (w ++ [' ']) ⟨38, st.page + 1⟩
        refine ⟨le_trans (Nat.le_succ st.page) ih.1, ?_⟩
        rw [List.filter_append, List.filter_cons_of_neg (by simp [isHeader])]
        rw [hh (st.page + 1), ih.2]
        rw [pageSpan_cons (lt_of_lt_of_le (Nat.lt_succ_self _) ih.1)]
        rw [List.flatMap_cons]
      · have hpc := pageCheck_neg hdr hov
        simp only [wrapStepLoop, if_neg hfit, hpc]
        try dsimp only
        have ih := wsl_headers m hdr hh ws (w ++ [' ']) ⟨st.y + 11, st.page⟩
        refine ⟨ih.1, ?_⟩
        rw [List.filter_append, List.filter_cons_of_neg (by simp [isHeader])]
        simpa using ih.2

theorem finalizeLine_snd_page (cl : Str) (st : RState) :
    (finalizeLine cl st).2.page = st.page := by
  unfold finalizeLine
  split <;> rfl

theorem finalizeLine_filter_header (cl : Str) (st : RState) :
    (finalizeLine cl st).1.filter isHeader = [] := by
  unfold finalizeLine
  split <;> simp [isHeader]

theorem ra_headers (m : Str → ℚ) (hdr : ℕ → List Instr)
    (hh : ∀ pg, (hdr pg).filter isHeader = hdr pg) (n : ℕ) (ans : Str) (st : RState) :
    st.page ≤ (renderAnswer m hdr n ans st).2.page ∧
    (renderAnswer m hdr n ans st).1.filter isHeader
      = (pageSpan st.page (renderAnswer m hdr n ans st).2.page).flatMap hdr := by
  unfold renderAnswer
  try dsimp only
  have hL := wsl_headers m hdr hh (pyWords ans) [] st
  set cl2 := (wrapStepLoop m hdr (pyWords ans) [] st).2.1 with hcl2
  set st1 := (wrapStepLoop m hdr (pyWords ans) [] st).2.2 with hst1
  have hfp : (finalizeLine cl2 st1).2.page = st1.page := finalizeLine_snd_page cl2 st1
  by_cases hov : (⟨(finalizeLine cl2 st1).2.y + 4, (finalizeLine cl2 st1).2.page⟩
      : RState).y > 285
  · have hpc := pageCheck_pos hdr hov
    rw [hpc]
    try dsimp only
    rw [hfp]
    constructor
    · exact le_trans hL.1 (by omega)
    · rw [List.filter_append, List.filter_append,
        List.filter_cons_of_neg (by simp [isHeader]), hL.2,
        finalizeLine_filter_header, List.append_nil, hh (st1.page + 1)]
      rw [← pageSpan_append hL.1 (show st1.page ≤ st1.page + 1 by omega)]
      rw [List.flatMap_append]
      rw [show pageSpan st1.page (st1.page + 1) = [st1.page + 1] from by
        rw [pageSpan_succ_right (le_refl _), pageSpan_self, List.nil_append]]
      simp
  · have hpc := pageCheck_neg hdr hov
    rw [hpc]
    try dsimp only
    rw [hfp]
    refine ⟨hL.1, ?_⟩
    rw [List.filter_append, List.filter_append,
      List.filter_cons_of_neg (by simp [isHeader]), hL.2,
      finalizeLine_filter_header, List.append_nil, List.filter_nil,
      List.append_nil]

theorem ras_headers (m : Str → ℚ) (hdr : ℕ → List Instr)
    (hh : ∀ pg, (hdr pg).filter isHeader = hdr pg) :
    ∀ (n : ℕ) (as : List Str) (st : RState),
    st.page ≤ (renderAnswers m hdr n as st).2.page ∧
    (renderAnswers m hdr n as st).1.filter isHeader
      = (pageSpan st.page (renderAnswers m hdr n as st).2.page).flatMap hdr
  | _, [], st => ⟨le_refl _, by simp [renderAnswers, pageSpan_self]⟩
  | n, a :: as, st => by
    simp only [renderAnswers]
    have h1 := ra_headers m hdr hh n a st
    have h2 := ras_headers m hdr hh (n + 1) as (renderAnswer m hdr n a st).2
    refine ⟨le_trans h1.1 h2.1, ?_⟩
    rw [List.filter_append, h1.2, h2.2, ← List.flatMap_append,
      pageSpan_append h1.1 h2.1]

/-- C6: the page header overlay. For N pages produced (N is the final page
index; pages are created one at a time starting from page 1), the filtered
header instructions of the full render are exactly two per page on every
page k+1 for k < N — the student name centred at `105 - measure(name)/2` at
height 17 and the roll number centred at `105 - measure(roll)/2` at height
24 below it — identically on every page regardless of how the answers are
distributed, including a trailing page without answer content; in
particular there are exactly 2 × N header placements. -/
theorem header_overlay_two_per_page (m : ℕ → Str → ℚ) (nm rl sol : Str) :
    (render m nm rl sol).1.filter isHeader
      = (List.range (render m nm rl sol).2.page).flatMap
          (fun k => [Instr.mk Kind.header nm (105 - m 36 nm / 2) 17 (k + 1),
                     Instr.mk Kind.header rl (105 - m 32 rl / 2) 24 (k + 1)]) := by
  have hh : ∀ pg, ((headerOf m nm rl) pg).filter isHeader = headerOf m nm rl pg := by
    intro pg
    simp [headerOf, isHeader]
  have hR := ras_headers (m 36) (headerOf m nm rl) hh 1 (pyAnswers sol) ⟨38, 1⟩
  have hN : 1 ≤ (renderAnswers (m 36) (headerOf m nm rl) 1 (pyAnswers sol)
      ⟨38, 1⟩).2.page := hR.1
  have hsplit := @pageSpan_cons 0
    (renderAnswers (m 36) (headerOf m nm rl) 1 (pyAnswers sol) ⟨38, 1⟩).2.page
    (by omega)
  unfold render
  try dsimp only
  rw [List.filter_append, hh 1, hR.2]
  calc headerOf m nm rl 1
        ++ (pageSpan (1:ℕ) (renderAnswers (m 36) (headerOf m nm rl) 1 (pyAnswers sol)
            ⟨38, 1⟩).2.page).flatMap (headerOf m nm rl)
      = (pageSpan 0 (renderAnswers (m 36) (headerOf m nm rl) 1 (pyAnswers sol)
            ⟨38, 1⟩).2.page).flatMap (headerOf m nm rl) := by
        rw [hsplit, List.flatMap_cons]
    _ = (List.range (renderAnswers (m 36) (headerOf m nm rl) 1 (pyAnswers sol)
            ⟨38, 1⟩).2.page).flatMap
          (fun k => [Instr.mk Kind.header nm (105 - m 36 nm / 2) 17 (k + 1),
                     Instr.mk Kind.header rl (105 - m 32 rl / 2) 24 (k + 1)]) := by
        unfold pageSpan
        rw [Nat.sub_zero, List.flatMap_map]
        exact flatMap_congr _ (fun k _ => by
          rw [show 0 + 1 + k = k + 1 by omega]
          rfl)

/-- C5: an Answer whose body is empty after trimming emits, through the
paginator, exactly one placement — its number label `n.` at
`(number_x, y) = (181/10, y)` — and zero body-line placements; rendering
does not fail, and the answer still occupies position `n` of the 1-based
numbering, its label text being `numLabel n`. -/
theorem empty_answer_label_only (m : Str → ℚ) (mh : ℕ → Str → ℚ) (nm rl : Str)
    (n : ℕ) (ans : Str) (st : RState) (h : pyStrip ans = []) :
    (renderAnswer m (headerOf mh nm rl) n ans st).1.filter nonHeader
      = [Instr.mk Kind.label (numLabel n) (181/10) st.y st.page] := by
  have hws : pyWords ans = [] := pyWords_nil_of_all_ws (all_ws_of_pyStrip_eq_nil h)
  have hp : ∀ pg, (headerOf mh nm rl pg).filter nonHeader = [] := by
    intro pg
    simp [headerOf, nonHeader, isHeader]
  unfold renderAnswer
  rw [hws]
  have h1 : wrapStepLoop m (headerOf mh nm rl) [] ([]:Str) st = ([], [], st) := rfl
  rw [h1]
  try dsimp only
  have h2 : finalizeLine [] st = ([], st) := rfl
  rw [h2]
  try dsimp only
  rw [List.filter_append, List.filter_append,
    List.filter_cons_of_pos (by simp [nonHeader, isHeader]),
    pageCheck_filter nonHeader (headerOf mh nm rl) hp]
  simp

theorem empty_answer_label_only_w :
    (renderAnswer (fun _ => (0:ℚ)) (headerOf (fun _ _ => 0) [] []) 3 [' ']
        ⟨38, 1⟩).1.filter nonHeader
      = [Instr.mk Kind.label (numLabel 3) (181/10) 38 1] :=
  empty_answer_label_only (fun _ => (0:ℚ)) (fun _ _ => 0) [] [] 3 [' '] ⟨38, 1⟩
    (by decide)

end Codefy
